import Mathlib

/-!
Verification of the memory-coherence engine of the vkStdpar repository:
the dirty-range tracker, the three-state coherence machine
(`versioning_engine` in `core/versioning_engine.hpp`), and the
`unified_vector` container with its write-detection proxy
(`containers/unified_vector.hpp`, `containers/unified_reference.hpp`).

The embedding models the configuration in which the device backend is
enabled (`VULKAN_STDPAR_USE_SYCL`), since the specification describes the
backend transfers.  Host and device memories are modelled as total
functions `Nat → Int` (the engine is templated over a trivially copyable
element type; `Int` stands for an arbitrary such type).  Freshly
allocated (uninitialized) memory is modelled as all zeros; raw host
storage surviving a `std::vector::reserve` regrow is modelled as
preserved.  Backend block copies are recorded in an explicit transfer
log so that "performs no transfer" claims are expressible.
-/

namespace VkStdpar

/-- Memory state enumeration, `memory_state` in the source. -/
inductive memory_state where
  | clean
  | host_dirty
  | device_dirty
deriving DecidableEq, Repr

/-- Contiguous region of modified memory, `struct dirty_range`.  The
source field `end` is a Lean keyword and is called `stop` here. -/
structure dirty_range where
  start : Nat
  stop : Nat
deriving DecidableEq, Repr

/-- Source: `return start < other.end && other.start < end;`. -/
def dirty_range.overlaps (a b : dirty_range) : Prop :=
  a.start < b.stop ∧ b.start < a.stop

/-- Source: `return end == other.start || other.end == start;`. -/
def dirty_range.adjacent (a b : dirty_range) : Prop :=
  a.stop = b.start ∨ b.stop = a.start

/-- Condition `existing.overlaps(r) || existing.adjacent(r)` used at every
merge decision in `mark_host_dirty_impl`. -/
def dirty_range.touches (a b : dirty_range) : Prop :=
  a.overlaps b ∨ a.adjacent b

instance (a b : dirty_range) : Decidable (a.overlaps b) := by
  unfold dirty_range.overlaps; infer_instance

instance (a b : dirty_range) : Decidable (a.adjacent b) := by
  unfold dirty_range.adjacent; infer_instance

instance (a b : dirty_range) : Decidable (a.touches b) := by
  unfold dirty_range.touches; infer_instance

/-- Source: `dirty_range(std::min(start, other.start), std::max(end, other.end))`. -/
def dirty_range.merge (a b : dirty_range) : dirty_range :=
  ⟨min a.start b.start, max a.stop b.stop⟩

/-- Source `dirty_range::empty`: `start >= end`; we use its negation mostly. -/
def dirty_range.isEmpty (a : dirty_range) : Prop := a.stop ≤ a.start

instance (a : dirty_range) : Decidable a.isEmpty := by
  unfold dirty_range.isEmpty; infer_instance

/-- Source `dirty_range::size`: `end - start`. -/
def dirty_range.size (a : dirty_range) : Nat := a.stop - a.start

/-- Default element used for positional access. -/
def dr0 : dirty_range := ⟨0, 0⟩

/-- First loop of `mark_host_dirty_impl`: scan the list in order, merge
the new range into the first existing range it overlaps or touches;
otherwise `push_back` it at the end. -/
def insertMerge : List dirty_range → dirty_range → List dirty_range
  | [], r => [r]
  | x :: xs, r =>
    if x.touches r then x.merge r :: xs else x :: insertMerge xs r

/-- Inner `j` loop of the exhaustive pairwise merging pass of
`mark_host_dirty_impl`: for fixed `i`, scan `j` upward; on an
overlap-or-adjacency merge `rs[j]` into `rs[i]`, erase index `j` and
re-examine the same position (`--j` then `++j` in the source). -/
def innerLoop (rs : List dirty_range) (i j : Nat) : List dirty_range :=
  if h : j < rs.length then
    if (rs.getD i dr0).touches (rs.getD j dr0) then
      innerLoop
        ((rs.set i ((rs.getD i dr0).merge (rs.getD j dr0))).eraseIdx j) i j
    else
      innerLoop rs i (j + 1)
  else rs
termination_by rs.length - j
decreasing_by
  · have hl : ((rs.set i ((rs.getD i dr0).merge (rs.getD j dr0))).eraseIdx j).length
        = rs.length - 1 := by
      rw [List.length_eraseIdx]; simp [h]
    omega
  · omega

/-- Length never grows across the inner merging loop. -/
theorem innerLoop_length_le (rs : List dirty_range) (i j : Nat) :
    (innerLoop rs i j).length ≤ rs.length := by
  induction rs, i, j using innerLoop.induct with
  | case1 rs i j h ht ih =>
    rw [innerLoop, dif_pos h, if_pos ht]
    have hl : ((rs.set i ((rs.getD i dr0).merge (rs.getD j dr0))).eraseIdx j).length
        = rs.length - 1 := by
      rw [List.length_eraseIdx]; simp [h]
    omega
  | case2 rs i j h ht ih =>
    rw [innerLoop, dif_pos h, if_neg ht]
    exact ih
  | case3 rs i j h =>
    rw [innerLoop, dif_neg h]

/-- Outer `i` loop of the exhaustive pairwise merging pass. -/
def outerLoop (rs : List dirty_range) (i : Nat) : List dirty_range :=
  if h : i < rs.length then outerLoop (innerLoop rs i (i + 1)) (i + 1) else rs
termination_by rs.length - i
decreasing_by
  have := innerLoop_length_le rs i (i + 1)
  omega

/-- Full dirty-range update of `mark_host_dirty_impl` after its
assertions: empty ranges are no-ops; otherwise the first-merge scan is
followed by the exhaustive pairwise pass starting at `i = 0`. -/
def markRanges (rs : List dirty_range) (s e : Nat) : List dirty_range :=
  if s = e then rs else outerLoop (insertMerge rs ⟨s, e⟩) 0

/-- Backend block copies, as recorded by the model. -/
inductive Transfer where
  | hostToDevice (start len : Nat)
  | deviceToHost
  | deviceToDevice (len : Nat)
deriving DecidableEq, Repr

/-- State of one `versioning_engine<T>` instance.  Host and device
memory are total functions; only indices below `capacity` are
meaningful.  `log` records backend copies in submission order. -/
structure Engine where
  state : memory_state
  dirty_ranges : List dirty_range
  host_data : Nat → Int
  device_buffer : Nat → Int
  capacity : Nat
  device_allocated : Bool
  log : List Transfer

/-- Engine constructor: state `clean`, no dirty ranges, no device buffer;
`host_data_.reserve(capacity)` gives uninitialized storage (zeros). -/
def mkEngine (capacity : Nat) : Engine :=
  { state := .clean
    dirty_ranges := []
    host_data := fun _ => 0
    device_buffer := fun _ => 0
    capacity := capacity
    device_allocated := false
    log := [] }

/-- Dirty-range insertion and state transition of `mark_host_dirty_impl`,
after its `assert(start <= end); assert(end <= capacity_)` validations
have passed: merge the range into the tracker, then promote `clean` to
`host_dirty` (any other state is kept). -/
def markHostDirtyP (σ : Engine) (s e : Nat) : Engine :=
  if s = e then σ
  else
    { σ with
      dirty_ranges := outerLoop (insertMerge σ.dirty_ranges ⟨s, e⟩) 0
      state := if σ.state = .clean then .host_dirty else σ.state }

/-- Validation failures of `mark_host_dirty_impl`; the source fails fast
through `assert(start <= end)` and `assert(end <= capacity_)`. -/
inductive RangeError where
  | inverted
  | outOfCapacity
deriving DecidableEq, Repr

/-- Checked `mark_host_dirty`: the two assertions in source order, then
the insertion. -/
def mark_host_dirty (σ : Engine) (s e : Nat) : Except RangeError Engine :=
  if s ≤ e then
    if e ≤ σ.capacity then .ok (markHostDirtyP σ s e)
    else .error .outOfCapacity
  else .error .inverted

/-- Source `mark_device_dirty_impl`: clear the tracker, set state to
`device_dirty`, unconditionally. -/
def mark_device_dirty (σ : Engine) : Engine :=
  { σ with dirty_ranges := [], state := .device_dirty }

/-- Block copy of `src` over indices `[s, e)` into `dst`. -/
def writeSeg (dst src : Nat → Int) (s e : Nat) : Nat → Int :=
  fun j => if s ≤ j ∧ j < e then src j else dst j

/-- Per-range copy loop of `sync_to_device_impl`: for each tracked range
in order, if non-empty, copy that host sub-range onto the device and
record the transfer. -/
def pushRanges (host dev : Nat → Int) :
    List dirty_range → (Nat → Int) × List Transfer
  | [] => (dev, [])
  | r :: rs =>
    if r.start < r.stop then
      let p := pushRanges host (writeSeg dev host r.start r.stop) rs
      (p.1, .hostToDevice r.start r.size :: p.2)
    else pushRanges host dev rs

/-- Source `sync_to_device_impl`: early return unless `host_dirty`;
otherwise lazily allocate the device mirror, copy each tracked dirty
range host→device, clear the tracker, set state `clean`. -/
def sync_to_device (σ : Engine) : Engine :=
  if σ.state = .host_dirty then
    { σ with
      device_buffer :=
        (pushRanges σ.host_data
          (if σ.device_allocated then σ.device_buffer else fun _ => 0) σ.dirty_ranges).1
      device_allocated := true
      dirty_ranges := []
      state := .clean
      log := σ.log ++
        (pushRanges σ.host_data
          (if σ.device_allocated then σ.device_buffer else fun _ => 0) σ.dirty_ranges).2 }
  else σ

/-- Source `sync_to_host_impl`: early return unless `device_dirty`; a
second early return (leaving the state unchanged) when the device buffer
was never allocated; otherwise copy the entire device buffer (extent
`capacity`) back to host and set state `clean`.  The tracker is not
cleared here. -/
def sync_to_host (σ : Engine) : Engine :=
  if σ.state = .device_dirty then
    if σ.device_allocated then
      { σ with
        host_data := fun j => if j < σ.capacity then σ.device_buffer j else σ.host_data j
        state := .clean
        log := σ.log ++ [.deviceToHost] }
    else σ
  else σ

/-- Source `resize_impl`: early return when `new_capacity <= capacity_`
(growth-only).  Otherwise grow host storage; if a device mirror exists,
allocate a fresh (uninitialized) mirror of the new capacity and, only
when the state is `device_dirty`, copy the old device contents (old
capacity elements) into it. -/
def resize (σ : Engine) (new_capacity : Nat) : Engine :=
  if new_capacity ≤ σ.capacity then σ
  else
    { σ with
      device_buffer :=
        if σ.device_allocated then
          if σ.state = .device_dirty then
            fun j => if j < σ.capacity then σ.device_buffer j else 0
          else fun _ => 0
        else σ.device_buffer
      log :=
        if σ.device_allocated ∧ σ.state = .device_dirty then
          σ.log ++ [.deviceToDevice σ.capacity]
        else σ.log
      capacity := new_capacity }

/-- Source `clear_dirty_ranges`: `dirty_ranges_.clear()`, state untouched. -/
def clear_dirty_ranges (σ : Engine) : Engine :=
  { σ with dirty_ranges := [] }

/-- State of one `unified_vector<T>`: its private `versioning_engine`
plus the logical element count `size_`. -/
structure UVec where
  engine : Engine
  size : Nat

/-- Container constructor `unified_vector(count)`: engine of capacity
`count`, size `count`, elements value-initialized through the raw host
pointer (`std::fill_n(data_impl(), count, T())`). -/
def mkUVec (count : Nat) : UVec :=
  { engine := { mkEngine count with host_data := fun _ => 0 }
    size := count }

/-- Source `unified_vector::at_impl` (the read path of the proxy):
`engine_.sync_to_host()` then return `data_impl()[index]`.  The sync can
mutate the engine (it is `const` in C++ only because the members are
`mutable`), so the model returns the value and the updated container. -/
def at_impl (v : UVec) (idx : Nat) : Int × UVec :=
  ((sync_to_host v.engine).host_data idx, { v with engine := sync_to_host v.engine })

/-- Source `unified_vector::set_impl` (the write path of the proxy):
`engine_.sync_to_host()`, then `data_impl()[index] = value`, then
`engine_.mark_host_dirty(index, index + 1)`. -/
def set_impl (v : UVec) (idx : Nat) (val : Int) : UVec :=
  { v with
    engine :=
      markHostDirtyP
        { sync_to_host v.engine with
          host_data := fun j =>
            if j = idx then val else (sync_to_host v.engine).host_data j }
        idx (idx + 1) }

/-- Proxy plain assignment `unified_reference::operator=(const T&)`:
forwards to `set_impl`. -/
def proxy_assign (v : UVec) (idx : Nat) (val : Int) : UVec :=
  set_impl v idx val

/-- Proxy compound assignment (`operator+=` shown; all compound forms in
`unified_reference` share this shape): read through `operator T()`
(which is `at_impl`), combine, then `set_impl`. -/
def proxy_add_assign (v : UVec) (idx : Nat) (rhs : Int) : UVec :=
  set_impl (at_impl v idx).2 idx ((at_impl v idx).1 + rhs)

/-- Proxy pre-increment `unified_reference::operator++`: read, add one,
`set_impl`. -/
def proxy_incr (v : UVec) (idx : Nat) : UVec :=
  set_impl (at_impl v idx).2 idx ((at_impl v idx).1 + 1)

/-- Proxy `unified_reference::swap` between two elements of the same
container: `T temp = *this; set_impl(i, other); set_impl(j, temp)` with
each read and write going through the sync-then-mark protocol. -/
def proxy_swap (v : UVec) (i j : Nat) : UVec :=
  set_impl (set_impl (at_impl (at_impl v i).2 j).2 i (at_impl (at_impl v i).2 j).1)
    j (at_impl v i).1

/-- Source `unified_vector::at` (non-const): bounds check against
`size_`, throwing `std::out_of_range`, then construct
`reference(this, pos)` — no sync, no dirty marking, no state change.
The proxy handle is represented by its bound index; the second component
is the container after the call. -/
def uv_at (v : UVec) (pos : Nat) : Except String Nat × UVec :=
  if pos ≥ v.size then (.error "unified_vector::at: index out of range", v)
  else (.ok pos, v)

/-- Source `unified_vector::operator[]`: constructs `reference(this, pos)`
unconditionally — no bounds check of any kind. -/
def uv_index (v : UVec) (pos : Nat) : Nat × UVec :=
  (pos, v)

/-- Source `unified_vector::reserve`: grow the engine only when
`new_cap > capacity()`. -/
def uv_reserve (v : UVec) (new_cap : Nat) : UVec :=
  if new_cap > v.engine.capacity then { v with engine := resize v.engine new_cap }
  else v

/-- Source `unified_vector::push_back`: double capacity when full (1 from
0), write the element through the raw host pointer, mark it dirty, bump
the size. -/
def uv_push_back (v : UVec) (val : Int) : UVec :=
  let w := if v.size ≥ v.engine.capacity then
      uv_reserve v (if v.engine.capacity = 0 then 1 else v.engine.capacity * 2)
    else v
  { engine :=
      markHostDirtyP
        { w.engine with
          host_data := fun j => if j = v.size then val else w.engine.host_data j }
        v.size (v.size + 1)
    size := v.size + 1 }

/-- Source `unified_vector::pop_back`: decrement `size_` when positive. -/
def uv_pop_back (v : UVec) : UVec :=
  if v.size > 0 then { v with size := v.size - 1 } else v

/-- Source `unified_vector::clear`: `size_ = 0` and
`engine_.clear_dirty_ranges()` — capacity and coherence state untouched. -/
def uv_clear (v : UVec) : UVec :=
  { engine := clear_dirty_ranges v.engine, size := 0 }

/-- Source `unified_vector::shrink_to_fit`: calls `engine_.resize(size_)`
when `size_ < capacity()`; the engine's growth-only resize makes this a
no-op. -/
def uv_shrink_to_fit (v : UVec) : UVec :=
  if v.size < v.engine.capacity then { v with engine := resize v.engine v.size }
  else v

/-- Source `unified_vector::resize(count, value)`: reserve when needed,
fill the new tail through the raw host pointer, mark `[size_, count)`
dirty, set the size. -/
def uv_resize (v : UVec) (count : Nat) (val : Int) : UVec :=
  let w := if count > v.engine.capacity then uv_reserve v count else v
  if count > v.size then
    { engine :=
        markHostDirtyP
          { w.engine with
            host_data := fun j =>
              if v.size ≤ j ∧ j < count then val else w.engine.host_data j }
          v.size count
      size := count }
  else { w with size := count }

/-- Source `unified_vector::assign(count, value)`: resize the engine when
needed, set the size, fill, mark `[0, size_)` dirty. -/
def uv_assign (v : UVec) (count : Nat) (val : Int) : UVec :=
  let w := if count > v.engine.capacity then { v with engine := resize v.engine count }
    else v
  { engine :=
      markHostDirtyP
        { w.engine with
          host_data := fun j => if j < count then val else w.engine.host_data j }
        0 count
    size := count }

/-- Source `unified_vector::prefetch_to_device`: `engine_.sync_to_device()`. -/
def uv_prefetch_to_device (v : UVec) : UVec :=
  { v with engine := sync_to_device v.engine }

/-- Container operations, used to quantify over "every operation" in the
capacity-monotonicity claim. -/
inductive VOp where
  | push (val : Int)
  | pop
  | clearOp
  | reserveOp (n : Nat)
  | resizeOp (n : Nat) (val : Int)
  | shrink
  | assignOp (n : Nat) (val : Int)
  | setOp (idx : Nat) (val : Int)
  | addAssignOp (idx : Nat) (rhs : Int)
  | incrOp (idx : Nat)
  | swapOp (i j : Nat)
  | readOp (idx : Nat)
  | atOp (pos : Nat)
  | indexOp (pos : Nat)
  | prefetchOp
  | syncHostOp
  | markDeviceDirtyOp
  | markHostDirtyOp (s e : Nat)
  | clearDirtyOp

/-- One container / engine operation applied to a vector state. -/
def vstep (v : UVec) : VOp → UVec
  | .push val => uv_push_back v val
  | .pop => uv_pop_back v
  | .clearOp => uv_clear v
  | .reserveOp n => uv_reserve v n
  | .resizeOp n val => uv_resize v n val
  | .shrink => uv_shrink_to_fit v
  | .assignOp n val => uv_assign v n val
  | .setOp idx val => set_impl v idx val
  | .addAssignOp idx rhs => proxy_add_assign v idx rhs
  | .incrOp idx => proxy_incr v idx
  | .swapOp i j => proxy_swap v i j
  | .readOp idx => (at_impl v idx).2
  | .atOp pos => (uv_at v pos).2
  | .indexOp pos => (uv_index v pos).2
  | .prefetchOp => uv_prefetch_to_device v
  | .syncHostOp => { v with engine := sync_to_host v.engine }
  | .markDeviceDirtyOp => { v with engine := mark_device_dirty v.engine }
  | .markHostDirtyOp s e => { v with engine := markHostDirtyP v.engine s e }
  | .clearDirtyOp => { v with engine := clear_dirty_ranges v.engine }

/-! Dirty-range tracker invariant: the development below proves that the
two merging passes of `mark_host_dirty_impl` keep the tracked set
pairwise disjoint and non-adjacent while preserving the covered index
set.  Invariants are phrased over `List.getD` positions, matching the
index-based loops of the source. -/

/-- Two ranges are separated when they neither overlap nor are adjacent:
the relation the tracker is meant to maintain pairwise. -/
def separated (a b : dirty_range) : Prop := ¬ a.touches b

/-- Index `x` lies in range `r`. -/
def pointIn (r : dirty_range) (x : Nat) : Prop := r.start ≤ x ∧ x < r.stop

/-- Index `x` is covered by some member of the set. -/
def covered (rs : List dirty_range) (x : Nat) : Prop :=
  ∃ r ∈ rs, r.start ≤ x ∧ x < r.stop

/-- Positional form of coverage. -/
def covIdx (rs : List dirty_range) (x : Nat) : Prop :=
  ∃ b, b < rs.length ∧ pointIn (rs.getD b dr0) x

/-- All members are non-empty, positionally. -/
def neAll (rs : List dirty_range) : Prop :=
  ∀ b, b < rs.length → (rs.getD b dr0).start < (rs.getD b dr0).stop

/-- All pairs at distinct positions are separated. -/
def allSep (rs : List dirty_range) : Prop :=
  ∀ a b, a < rs.length → b < rs.length → a ≠ b →
    ¬ (rs.getD a dr0).touches (rs.getD b dr0)

/-- All pairs at distinct positions other than `k` are separated: the
shape of the tracker right after the first-merge scan, where position
`k` holds the newly inserted or grown range. -/
def sepExcept (rs : List dirty_range) (k : Nat) : Prop :=
  ∀ a b, a < rs.length → b < rs.length → a ≠ b → a ≠ k → b ≠ k →
    ¬ (rs.getD a dr0).touches (rs.getD b dr0)

/-- The range at position `k` is separated from every earlier position:
the first-merge scan guarantees this because it merges into the first
touching range. -/
def cleanBelow (rs : List dirty_range) (k : Nat) : Prop :=
  ∀ m, m < k → ¬ (rs.getD m dr0).touches (rs.getD k dr0)

/-- Position `i` is separated from every position below `j` other than
itself: the inner-loop invariant for the scanned part. -/
def iCleanBelow (rs : List dirty_range) (i j : Nat) : Prop :=
  ∀ m, m < j → m ≠ i → ¬ (rs.getD m dr0).touches (rs.getD i dr0)

theorem touches_symm {a b : dirty_range} (h : a.touches b) : b.touches a := by
  simp only [dirty_range.touches, dirty_range.overlaps, dirty_range.adjacent] at h ⊢
  omega

theorem merge_nonempty {b c : dirty_range} (hb : b.start < b.stop) :
    (b.merge c).start < (b.merge c).stop := by
  simp only [dirty_range.merge]
  omega

theorem touches_merge_iff {a b c : dirty_range}
    (ha : a.start < a.stop) (hb : b.start < b.stop) (hc : c.start < c.stop)
    (hbc : b.touches c) :
    a.touches (b.merge c) ↔ a.touches b ∨ a.touches c := by
  simp only [dirty_range.touches, dirty_range.overlaps, dirty_range.adjacent,
    dirty_range.merge] at hbc ⊢
  omega

theorem pointIn_merge_iff {b c : dirty_range} (x : Nat)
    (hb : b.start < b.stop) (hc : c.start < c.stop) (hbc : b.touches c) :
    pointIn (b.merge c) x ↔ pointIn b x ∨ pointIn c x := by
  simp only [pointIn, dirty_range.touches, dirty_range.overlaps, dirty_range.adjacent,
    dirty_range.merge] at hbc ⊢
  omega

/-- Positional description of one merge step of the inner loop:
`rs[i] := rs[i].merge rs[j]` followed by erasing position `j`. -/
theorem getD_merge_step (rs : List dirty_range) (m : dirty_range) (i j a : Nat)
    (hij : i < j) (hj : j < rs.length) :
    ((rs.set i m).eraseIdx j).getD a dr0 =
      if a < j then (if a = i then m else rs.getD a dr0)
      else rs.getD (a + 1) dr0 := by
  have hlen : ((rs.set i m).eraseIdx j).length = rs.length - 1 := by
    rw [List.length_eraseIdx]
    simp [hj]
  by_cases ha : a < rs.length - 1
  · rw [List.getD_eq_getElem _ _ (by omega)]
    by_cases haj : a < j
    · rw [List.getElem_eraseIdx_of_lt _ _ _ (by omega) haj]
      by_cases hai : a = i
      · subst hai
        rw [if_pos haj, if_pos rfl]
        exact List.getElem_set_self (by simp; omega)
      · rw [if_pos haj, if_neg hai, List.getElem_set_ne (by omega) (by simp; omega),
          List.getD_eq_getElem _ _ (by omega)]
    · rw [List.getElem_eraseIdx_of_ge _ _ _ (by omega) (by omega)]
      rw [if_neg haj, List.getElem_set_ne (by omega) (by simp; omega),
        List.getD_eq_getElem _ _ (by omega)]
  · rw [List.getD_eq_default _ _ (by omega)]
    have haj : ¬ a < j := by omega
    rw [if_neg haj, List.getD_eq_default _ _ (by omega)]

/-- Coverage is preserved by one merge step of the inner loop. -/
theorem covIdx_merge_step (rs : List dirty_range) (i j : Nat)
    (hij : i < j) (hj : j < rs.length)
    (hbz : (rs.getD i dr0).start < (rs.getD i dr0).stop)
    (hcz : (rs.getD j dr0).start < (rs.getD j dr0).stop)
    (ht : (rs.getD i dr0).touches (rs.getD j dr0)) (x : Nat) :
    covIdx ((rs.set i ((rs.getD i dr0).merge (rs.getD j dr0))).eraseIdx j) x ↔
      covIdx rs x := by
  have hlen : ((rs.set i ((rs.getD i dr0).merge (rs.getD j dr0))).eraseIdx j).length
      = rs.length - 1 := by
    rw [List.length_eraseIdx]
    simp [hj]
  constructor
  · rintro ⟨b, hb, hpt⟩
    rw [getD_merge_step rs _ i j b hij hj] at hpt
    by_cases hbj : b < j
    · by_cases hbi : b = i
      · subst hbi
        rw [if_pos hbj, if_pos rfl] at hpt
        rcases (pointIn_merge_iff x hbz hcz ht).mp hpt with h | h
        · exact ⟨b, by omega, h⟩
        · exact ⟨j, by omega, h⟩
      · rw [if_pos hbj, if_neg hbi] at hpt
        exact ⟨b, by omega, hpt⟩
    · rw [if_neg hbj] at hpt
      exact ⟨b + 1, by omega, hpt⟩
  · rintro ⟨b, hb, hpt⟩
    by_cases hbi : b = i
    · subst hbi
      refine ⟨b, by omega, ?_⟩
      rw [getD_merge_step rs _ b j b hij hj, if_pos hij, if_pos rfl]
      exact (pointIn_merge_iff x hbz hcz ht).mpr (Or.inl hpt)
    · by_cases hbj : b = j
      · subst hbj
        refine ⟨i, by omega, ?_⟩
        rw [getD_merge_step rs _ i b i hij hj, if_pos hij, if_pos rfl]
        exact (pointIn_merge_iff x hbz hcz ht).mpr (Or.inr hpt)
      · by_cases hbltj : b < j
        · refine ⟨b, by omega, ?_⟩
          rw [getD_merge_step rs _ i j b hij hj, if_pos hbltj, if_neg hbi]
          exact hpt
        · refine ⟨b - 1, by omega, ?_⟩
          rw [getD_merge_step rs _ i j (b - 1) hij hj, if_neg (by omega)]
          have hsub : b - 1 + 1 = b := by omega
          rw [hsub]
          exact hpt

/-- Main invariant of the inner merging loop: if every pair of positions
other than `i` is separated, and `i` is separated from the already
scanned part, the loop ends with a fully separated, non-empty set
covering the same indices. -/
theorem innerLoop_spec : ∀ rs i j,
    i < j → i < rs.length → neAll rs → sepExcept rs i → iCleanBelow rs i j →
    allSep (innerLoop rs i j) ∧ neAll (innerLoop rs i j) ∧
      (∀ x, covIdx (innerLoop rs i j) x ↔ covIdx rs x) := by
  intro rs i j
  induction rs, i, j using innerLoop.induct with
  | case1 rs i j h ht ih =>
    intro hij hi hNE hSE hIC
    rw [innerLoop, dif_pos h, if_pos ht]
    have hiN : (rs.getD i dr0).start < (rs.getD i dr0).stop := hNE i hi
    have hjN : (rs.getD j dr0).start < (rs.getD j dr0).stop := hNE j h
    have hstep := getD_merge_step rs ((rs.getD i dr0).merge (rs.getD j dr0)) i j
    have hlen : ((rs.set i ((rs.getD i dr0).merge (rs.getD j dr0))).eraseIdx j).length
        = rs.length - 1 := by
      rw [List.length_eraseIdx]
      simp [h]
    have main := ih hij (by omega)
      (by
        intro b hb
        rw [hstep b hij h]
        by_cases hbj : b < j
        · by_cases hbi : b = i
          · subst hbi
            rw [if_pos hbj, if_pos rfl]
            exact merge_nonempty hiN
          · rw [if_pos hbj, if_neg hbi]
            exact hNE b (by omega)
        · rw [if_neg hbj]
          exact hNE (b + 1) (by omega))
      (by
        intro a b ha hb hab hai hbi
        rw [hstep a hij h, hstep b hij h]
        by_cases haj : a < j
        · by_cases hbj : b < j
          · rw [if_pos haj, if_neg hai, if_pos hbj, if_neg hbi]
            exact hSE a b (by omega) (by omega) hab hai hbi
          · rw [if_pos haj, if_neg hai, if_neg hbj]
            exact hSE a (b + 1) (by omega) (by omega) (by omega) hai (by omega)
        · by_cases hbj : b < j
          · rw [if_neg haj, if_pos hbj, if_neg hbi]
            exact hSE (a + 1) b (by omega) (by omega) (by omega) (by omega) hbi
          · rw [if_neg haj, if_neg hbj]
            exact hSE (a + 1) (b + 1) (by omega) (by omega) (by omega) (by omega) (by omega))
      (by
        intro mm hmm hmi
        rw [hstep mm hij h, hstep i hij h, if_pos hij, if_pos rfl, if_pos hmm, if_neg hmi]
        have hmN : (rs.getD mm dr0).start < (rs.getD mm dr0).stop := hNE mm (by omega)
        rw [touches_merge_iff hmN hiN hjN ht]
        push_neg
        exact ⟨hIC mm hmm hmi, hSE mm j (by omega) h (by omega) hmi (by omega)⟩)
    refine ⟨main.1, main.2.1, ?_⟩
    intro x
    rw [main.2.2 x]
    exact covIdx_merge_step rs i j hij h hiN hjN ht x
  | case2 rs i j h ht ih =>
    intro hij hi hNE hSE hIC
    rw [innerLoop, dif_pos h, if_neg ht]
    refine ih (by omega) hi hNE hSE ?_
    intro mm hmm hmi
    by_cases hmj : mm = j
    · subst hmj
      intro hc
      exact ht (touches_symm hc)
    · exact hIC mm (by omega) hmi
  | case3 rs i j h =>
    intro hij hi hNE hSE hIC
    rw [innerLoop, dif_neg h]
    refine ⟨?_, hNE, fun x => Iff.rfl⟩
    intro a b ha hb hab
    by_cases hai : a = i
    · subst hai
      intro hc
      exact hIC b (by omega) (by omega) (touches_symm hc)
    · by_cases hbi : b = i
      · subst hbi
        exact hIC a (by omega) hai
      · exact hSE a b ha hb hab hai hbi

/-- When position `i` is separated from every unscanned position, the
inner merging loop changes nothing. -/
theorem innerLoop_eq_self : ∀ rs i j,
    (∀ m, j ≤ m → m < rs.length → ¬ (rs.getD i dr0).touches (rs.getD m dr0)) →
    innerLoop rs i j = rs := by
  intro rs i j
  induction rs, i, j using innerLoop.induct with
  | case1 rs i j h ht ih =>
    intro hsep
    exact absurd ht (hsep j (by omega) h)
  | case2 rs i j h ht ih =>
    intro hsep
    rw [innerLoop, dif_pos h, if_neg ht]
    exact ih fun m hm hml => hsep m (by omega) hml
  | case3 rs i j h =>
    intro hsep
    rw [innerLoop, dif_neg h]

/-- Main invariant of the outer merging pass: from a set that is fully
separated, or separated everywhere except at one position `k ≥ i` that
is itself separated from all earlier positions, the pass produces a
fully separated, non-empty set covering the same indices. -/
theorem outerLoop_spec : ∀ rs i,
    neAll rs →
    (allSep rs ∨ ∃ k, i ≤ k ∧ k < rs.length ∧ sepExcept rs k ∧ cleanBelow rs k) →
    allSep (outerLoop rs i) ∧ neAll (outerLoop rs i) ∧
      (∀ x, covIdx (outerLoop rs i) x ↔ covIdx rs x) := by
  intro rs i
  induction rs, i using outerLoop.induct with
  | case1 rs i h ih =>
    intro hNE hdisj
    rw [outerLoop, dif_pos h]
    rcases hdisj with hAll | ⟨k, hik, hk, hSE, hCB⟩
    · have heq : innerLoop rs i (i + 1) = rs :=
        innerLoop_eq_self rs i (i + 1) fun m hm hml => hAll i m h hml (by omega)
      rw [heq] at ih ⊢
      exact ih hNE (Or.inl hAll)
    · by_cases hieq : i = k
      · subst hieq
        have main := innerLoop_spec rs i (i + 1) (by omega) h hNE hSE
          (fun m hm hmi => hCB m (by omega))
        have res := ih main.2.1 (Or.inl main.1)
        refine ⟨res.1, res.2.1, ?_⟩
        intro x
        rw [res.2.2 x, main.2.2 x]
      · have heq : innerLoop rs i (i + 1) = rs := by
          refine innerLoop_eq_self rs i (i + 1) ?_
          intro m hm hml
          by_cases hmk : m = k
          · subst hmk
            exact hCB i (by omega)
          · exact hSE i m h hml (by omega) (by omega) hmk
        rw [heq] at ih ⊢
        exact ih hNE (Or.inr ⟨k, by omega, hk, hSE, hCB⟩)
  | case2 rs i h =>
    intro hNE hdisj
    rw [outerLoop, dif_neg h]
    rcases hdisj with hAll | ⟨k, hik, hk, _, _⟩
    · exact ⟨hAll, hNE, fun x => Iff.rfl⟩
    · omega

/-- Structural description of the first-merge scan: there is a single
position `k` whose content absorbed the new range — either the range was
appended at the end, or it was merged with the first range it touches —
every other position is unchanged, and no position before `k` touches
the new range. -/
theorem insertMerge_struct : ∀ (rs : List dirty_range) (r : dirty_range),
    ∃ k, k < (insertMerge rs r).length ∧
      (∀ b, b ≠ k → (insertMerge rs r).getD b dr0 = rs.getD b dr0) ∧
      (∀ b, b < k → ¬ (rs.getD b dr0).touches r) ∧
      ((k = rs.length ∧ (insertMerge rs r).length = rs.length + 1 ∧
          (insertMerge rs r).getD k dr0 = r) ∨
       (k < rs.length ∧ (insertMerge rs r).length = rs.length ∧
          (insertMerge rs r).getD k dr0 = (rs.getD k dr0).merge r ∧
          (rs.getD k dr0).touches r)) := by
  intro rs r
  induction rs with
  | nil =>
    refine ⟨0, by simp [insertMerge], ?_, by omega, Or.inl ⟨rfl, by simp [insertMerge], rfl⟩⟩
    intro b hb
    cases b with
    | zero => exact absurd rfl hb
    | succ n => simp [insertMerge, List.getD]
  | cons x xs ih =>
    by_cases hx : x.touches r
    · refine ⟨0, by simp [insertMerge, hx], ?_, by omega,
        Or.inr ⟨by simp, by simp [insertMerge, hx], by simp [insertMerge, hx], by simpa using hx⟩⟩
      intro b hb
      cases b with
      | zero => exact absurd rfl hb
      | succ n => simp [insertMerge, hx]
    · obtain ⟨k, hk, hsame, hbelow, hdisj⟩ := ih
      refine ⟨k + 1, by simpa [insertMerge, hx] using hk, ?_, ?_, ?_⟩
      · intro b hb
        cases b with
        | zero => simp [insertMerge, hx]
        | succ n =>
          have : n ≠ k := by omega
          simpa [insertMerge, hx] using hsame n this
      · intro b hb
        cases b with
        | zero => simpa using hx
        | succ n => simpa using hbelow n (by omega)
      · rcases hdisj with ⟨h1, h2, h3⟩ | ⟨h1, h2, h3, h4⟩
        · exact Or.inl ⟨by simp [h1], by simp [insertMerge, hx, h2], by simpa [insertMerge, hx] using h3⟩
        · exact Or.inr ⟨by simp; omega, by simp [insertMerge, hx, h2],
            by simpa [insertMerge, hx] using h3, by simpa using h4⟩

/-- Semantic consequence of the first-merge scan: from a separated,
non-empty set and a non-empty new range, the scan produces a set that is
separated everywhere except possibly at the absorbing position `k`,
where it is at least separated from everything below `k`, and whose
coverage is the old coverage plus the new range. -/
theorem insertMerge_spec (rs : List dirty_range) (r : dirty_range)
    (hr : r.start < r.stop) (hNE : neAll rs) (hSep : allSep rs) :
    ∃ k, k < (insertMerge rs r).length ∧ neAll (insertMerge rs r) ∧
      sepExcept (insertMerge rs r) k ∧ cleanBelow (insertMerge rs r) k ∧
      (∀ x, covIdx (insertMerge rs r) x ↔ covIdx rs x ∨ pointIn r x) := by
  obtain ⟨k, hk, hsame, hbelow, hdisj⟩ := insertMerge_struct rs r
  have hblen : ∀ b, b < (insertMerge rs r).length → b ≠ k → b < rs.length := by
    intro b hb hbk
    rcases hdisj with ⟨h1, h2, _⟩ | ⟨h1, h2, _, _⟩ <;> omega
  refine ⟨k, hk, ?_, ?_, ?_, ?_⟩
  · intro b hb
    by_cases hbk : b = k
    · subst hbk
      rcases hdisj with ⟨h1, h2, h3⟩ | ⟨h1, h2, h3, h4⟩
      · rw [h3]; exact hr
      · rw [h3]; exact merge_nonempty (hNE b h1)
    · rw [hsame b hbk]
      exact hNE b (hblen b hb hbk)
  · intro a b ha hb hab hak hbk
    rw [hsame a hak, hsame b hbk]
    exact hSep a b (hblen a ha hak) (hblen b hb hbk) hab
  · intro m hm
    rw [hsame m (by omega)]
    have hmlen : m < rs.length := by
      rcases hdisj with ⟨h1, _, _⟩ | ⟨h1, _, _, _⟩ <;> omega
    rcases hdisj with ⟨h1, h2, h3⟩ | ⟨h1, h2, h3, h4⟩
    · rw [h3]
      exact hbelow m hm
    · rw [h3]
      rw [touches_merge_iff (hNE m hmlen) (hNE k h1) hr h4]
      push_neg
      exact ⟨hSep m k hmlen h1 (by omega), hbelow m hm⟩
  · intro x
    constructor
    · rintro ⟨b, hb, hpt⟩
      by_cases hbk : b = k
      · subst hbk
        rcases hdisj with ⟨h1, h2, h3⟩ | ⟨h1, h2, h3, h4⟩
        · rw [h3] at hpt
          exact Or.inr hpt
        · rw [h3] at hpt
          rcases (pointIn_merge_iff x (hNE b h1) hr h4).mp hpt with h | h
          · exact Or.inl ⟨b, h1, h⟩
          · exact Or.inr h
      · rw [hsame b hbk] at hpt
        exact Or.inl ⟨b, hblen b hb hbk, hpt⟩
    · rintro (⟨b, hb, hpt⟩ | hpt)
      · by_cases hbk : b = k
        · subst hbk
          rcases hdisj with ⟨h1, h2, h3⟩ | ⟨h1, h2, h3, h4⟩
          · omega
          · refine ⟨b, hk, ?_⟩
            rw [h3]
            exact (pointIn_merge_iff x (hNE b h1) hr h4).mpr (Or.inl hpt)
        · refine ⟨b, ?_, ?_⟩
          · rcases hdisj with ⟨h1, h2, _⟩ | ⟨h1, h2, _, _⟩ <;> omega
          · rw [hsame b hbk]
            exact hpt
      · refine ⟨k, hk, ?_⟩
        rcases hdisj with ⟨h1, h2, h3⟩ | ⟨h1, h2, h3, h4⟩
        · rw [h3]
          exact hpt
        · rw [h3]
          exact (pointIn_merge_iff x (hNE k h1) hr h4).mpr (Or.inr hpt)

/-- Full dirty-range update of one `mark_host_dirty_impl` call with a
valid range: separation and non-emptiness are preserved and the covered
set gains exactly `[s, e)`. -/
theorem markRanges_spec (rs : List dirty_range) (s e : Nat) (hse : s ≤ e)
    (hNE : neAll rs) (hSep : allSep rs) :
    allSep (markRanges rs s e) ∧ neAll (markRanges rs s e) ∧
      (∀ x, covIdx (markRanges rs s e) x ↔ covIdx rs x ∨ (s ≤ x ∧ x < e)) := by
  by_cases hee : s = e
  · subst hee
    rw [markRanges, if_pos rfl]
    refine ⟨hSep, hNE, fun x => ?_⟩
    constructor
    · exact fun h => Or.inl h
    · rintro (h | h)
      · exact h
      · omega
  · rw [markRanges, if_neg hee]
    obtain ⟨k, hk, hNE2, hSE2, hCB2, hcov2⟩ :=
      insertMerge_spec rs ⟨s, e⟩ (by simp; omega) hNE hSep
    obtain ⟨h1, h2, h3⟩ := outerLoop_spec (insertMerge rs ⟨s, e⟩) 0 hNE2
      (Or.inr ⟨k, by omega, hk, hSE2, hCB2⟩)
    refine ⟨h1, h2, ?_⟩
    intro x
    rw [h3 x, hcov2 x]
    rfl

theorem covIdx_iff_covered (rs : List dirty_range) (x : Nat) :
    covIdx rs x ↔ covered rs x := by
  constructor
  · rintro ⟨b, hb, hpt⟩
    refine ⟨rs.getD b dr0, ?_, hpt⟩
    rw [List.getD_eq_getElem _ _ hb]
    exact List.getElem_mem hb
  · rintro ⟨r, hmem, hpt⟩
    obtain ⟨n, hn, heq⟩ := List.mem_iff_getElem.mp hmem
    refine ⟨n, hn, ?_⟩
    rw [pointIn, List.getD_eq_getElem _ _ hn, heq]
    exact hpt

theorem allSep_iff_pairwise (rs : List dirty_range) :
    allSep rs ↔ List.Pairwise separated rs := by
  rw [List.pairwise_iff_getElem]
  constructor
  · intro h a b ha hb hab
    have := h a b ha hb (by omega)
    rwa [List.getD_eq_getElem _ _ ha, List.getD_eq_getElem _ _ hb] at this
  · intro h a b ha hb hab
    rw [List.getD_eq_getElem _ _ ha, List.getD_eq_getElem _ _ hb]
    rcases Nat.lt_or_ge a b with hlt | hge
    · exact h a b ha hb hlt
    · have hblt : b < a := by omega
      have := h b a hb ha hblt
      exact fun hc => this (touches_symm hc)

theorem neAll_iff_mem (rs : List dirty_range) :
    neAll rs ↔ ∀ r ∈ rs, r.start < r.stop := by
  constructor
  · intro h r hmem
    obtain ⟨n, hn, heq⟩ := List.mem_iff_getElem.mp hmem
    have := h n hn
    rwa [List.getD_eq_getElem _ _ hn, heq] at this
  · intro h b hb
    rw [List.getD_eq_getElem _ _ hb]
    exact h _ (List.getElem_mem hb)

/-- Dirty-range sets resulting from a whole sequence of valid
`mark_host_dirty` range insertions. -/
def foldRanges (rs : List dirty_range) (calls : List (Nat × Nat)) : List dirty_range :=
  calls.foldl (fun a c => markRanges a c.1 c.2) rs

/-- Engine resulting from a whole sequence of valid `mark_host_dirty`
calls (each one modelled by its post-assertion body). -/
def foldMark (σ : Engine) (calls : List (Nat × Nat)) : Engine :=
  calls.foldl (fun a c => markHostDirtyP a c.1 c.2) σ

theorem markHostDirtyP_dirty_ranges (σ : Engine) (s e : Nat) :
    (markHostDirtyP σ s e).dirty_ranges = markRanges σ.dirty_ranges s e := by
  by_cases h : s = e <;> simp [markHostDirtyP, markRanges, h]

theorem foldMark_dirty_ranges : ∀ (calls : List (Nat × Nat)) (σ : Engine),
    (foldMark σ calls).dirty_ranges = foldRanges σ.dirty_ranges calls := by
  intro calls
  induction calls with
  | nil => intro σ; rfl
  | cons c cs ih =>
    intro σ
    show (foldMark (markHostDirtyP σ c.1 c.2) cs).dirty_ranges = _
    rw [ih, markHostDirtyP_dirty_ranges]
    rfl

theorem foldRanges_spec : ∀ (calls : List (Nat × Nat)) (rs : List dirty_range),
    (∀ c ∈ calls, c.1 ≤ c.2) → neAll rs → allSep rs →
    allSep (foldRanges rs calls) ∧ neAll (foldRanges rs calls) ∧
      (∀ x, covIdx (foldRanges rs calls) x ↔
        covIdx rs x ∨ ∃ c ∈ calls, c.1 ≤ x ∧ x < c.2) := by
  intro calls
  induction calls with
  | nil =>
    intro rs hv hNE hSep
    refine ⟨hSep, hNE, fun x => ?_⟩
    simp [foldRanges]
  | cons c cs ih =>
    intro rs hv hNE hSep
    obtain ⟨h1, h2, h3⟩ := markRanges_spec rs c.1 c.2 (hv c (by simp)) hNE hSep
    obtain ⟨g1, g2, g3⟩ := ih (markRanges rs c.1 c.2)
      (fun d hd => hv d (by simp [hd])) h2 h1
    refine ⟨g1, g2, fun x => ?_⟩
    show covIdx (foldRanges (markRanges rs c.1 c.2) cs) x ↔ _
    rw [g3 x, h3 x]
    simp only [List.mem_cons]
    constructor
    · rintro ((h | h) | ⟨d, hd, hx⟩)
      · exact Or.inl h
      · exact Or.inr ⟨c, Or.inl rfl, h⟩
      · exact Or.inr ⟨d, Or.inr hd, hx⟩
    · rintro (h | ⟨d, (rfl | hd), hx⟩)
      · exact Or.inl (Or.inl h)
      · exact Or.inl (Or.inr hx)
      · exact Or.inr ⟨d, hd, hx⟩

/-- C1: for every sequence of `mark_host_dirty(start, end)` calls with
valid ranges (`start ≤ end ≤ capacity`), starting from an empty tracker,
the resulting dirty-range set is pairwise disjoint and non-adjacent, and
the set of indices it covers is exactly the union of all inserted
ranges; bridging ranges therefore collapse chains of previously separate
ranges. -/
theorem C1_dirty_set_coalesces (cap : Nat) (calls : List (Nat × Nat))
    (hvalid : ∀ c ∈ calls, c.1 ≤ c.2 ∧ c.2 ≤ cap) :
    List.Pairwise separated (foldMark (mkEngine cap) calls).dirty_ranges ∧
      ∀ x, covered (foldMark (mkEngine cap) calls).dirty_ranges x ↔
        ∃ c ∈ calls, c.1 ≤ x ∧ x < c.2 := by
  have hdr : (foldMark (mkEngine cap) calls).dirty_ranges = foldRanges [] calls := by
    rw [foldMark_dirty_ranges]
    rfl
  obtain ⟨h1, h2, h3⟩ := foldRanges_spec calls []
    (fun c hc => (hvalid c hc).1)
    (by intro b hb; simp at hb)
    (by intro a b ha hb hab; simp at ha)
  constructor
  · rw [hdr, ← allSep_iff_pairwise]
    exact h1
  · intro x
    rw [hdr, ← covIdx_iff_covered, h3 x]
    simp [covIdx]

/-- Witness for C1 at Scenario C of the specification: capacity 10,
inserting `[0,3)`, `[6,9)` and then the bridging `[3,6)`. -/
theorem C1_dirty_set_coalesces_witness :
    List.Pairwise separated
      (foldMark (mkEngine 10) [(0, 3), (6, 9), (3, 6)]).dirty_ranges ∧
      (covered (foldMark (mkEngine 10) [(0, 3), (6, 9), (3, 6)]).dirty_ranges 4 ↔
        ∃ c ∈ [(0, 3), (6, 9), (3, 6)], c.1 ≤ 4 ∧ 4 < c.2) :=
  ⟨(C1_dirty_set_coalesces 10 [(0, 3), (6, 9), (3, 6)] (by decide)).1,
   (C1_dirty_set_coalesces 10 [(0, 3), (6, 9), (3, 6)] (by decide)).2 4⟩

theorem insertMerge_length_pos (rs : List dirty_range) (r : dirty_range) :
    0 < (insertMerge rs r).length := by
  cases rs with
  | nil => simp [insertMerge]
  | cons x xs =>
    rw [insertMerge]
    split <;> simp

theorem innerLoop_length_pos : ∀ (rs : List dirty_range) (i j : Nat),
    0 < j → 0 < rs.length → 0 < (innerLoop rs i j).length := by
  intro rs i j
  induction rs, i, j using innerLoop.induct with
  | case1 rs i j h ht ih =>
    intro hj hrs
    rw [innerLoop, dif_pos h, if_pos ht]
    refine ih hj ?_
    rw [List.length_eraseIdx]
    · simp [h]
      omega
  | case2 rs i j h ht ih =>
    intro hj hrs
    rw [innerLoop, dif_pos h, if_neg ht]
    exact ih (by omega) hrs
  | case3 rs i j h =>
    intro hj hrs
    rwa [innerLoop, dif_neg h]

theorem outerLoop_length_pos : ∀ (rs : List dirty_range) (i : Nat),
    0 < rs.length → 0 < (outerLoop rs i).length := by
  intro rs i
  induction rs, i using outerLoop.induct with
  | case1 rs i h ih =>
    intro hrs
    rw [outerLoop, dif_pos h]
    exact ih (innerLoop_length_pos rs i (i + 1) (by omega) hrs)
  | case2 rs i h =>
    intro hrs
    rwa [outerLoop, dif_neg h]

/-- Engine operations quantified over by the coherence-state invariant. -/
inductive EOp where
  | mhd (s e : Nat)
  | mdd
  | std
  | sth
  | rsz (n : Nat)

/-- One engine operation. -/
def estep (σ : Engine) : EOp → Engine
  | .mhd s e => markHostDirtyP σ s e
  | .mdd => mark_device_dirty σ
  | .std => sync_to_device σ
  | .sth => sync_to_host σ
  | .rsz n => resize σ n

/-- Caller protocol of section 4.2 of the specification: `mark_host_dirty`
is only reached with a valid range after pending device-authoritative
data has been pulled to host, hence never in state `device_dirty`. -/
def protocolOk (σ : Engine) : EOp → Prop
  | .mhd s e => σ.state ≠ .device_dirty ∧ s ≤ e ∧ e ≤ σ.capacity
  | _ => True

/-- Engine states reachable from a fresh engine through operations
respecting the caller protocol. -/
inductive ProtocolReach : Engine → Prop where
  | init (cap : Nat) : ProtocolReach (mkEngine cap)
  | step (σ : Engine) (op : EOp) : ProtocolReach σ → protocolOk σ op →
      ProtocolReach (estep σ op)

/-- C2 counterexample: `mark_device_dirty` — one of the operations the
claim quantifies over — always leaves an empty dirty-range set together
with state `DeviceDirty`, so `state == Clean ⇔ dirty set empty` is
violated immediately after it. -/
theorem C2_counterexample :
    ¬ (((mark_device_dirty (mkEngine 4)).state = memory_state.clean) ↔
        (mark_device_dirty (mkEngine 4)).dirty_ranges = []) := by
  simp [mark_device_dirty, mkEngine]

/-- C2 (amended): after every operation of a sequence that respects the
write-proxy caller protocol (valid ranges, `mark_host_dirty` never in
state `DeviceDirty`) and does not use `clear_dirty_ranges`, the state is
`HostDirty` iff the dirty-range set is non-empty, and in state
`DeviceDirty` the set is always empty (so `Clean` implies an empty set,
but an empty set does not imply `Clean`). -/
theorem C2_state_dirty_set_invariant (σ : Engine) (hreach : ProtocolReach σ) :
    ((σ.state = memory_state.host_dirty) ↔ σ.dirty_ranges ≠ []) ∧
      (σ.state = memory_state.device_dirty → σ.dirty_ranges = []) := by
  induction hreach with
  | init cap => simp [mkEngine]
  | step σ op hr hok ih =>
    cases op with
    | mhd s e =>
      show _ ∧ _
      rw [estep]
      by_cases hse : s = e
      · rw [markHostDirtyP, if_pos hse]
        exact ih
      · rw [markHostDirtyP, if_neg hse]
        obtain ⟨hnd, hvr, hvc⟩ := hok
        have hne : outerLoop (insertMerge σ.dirty_ranges ⟨s, e⟩) 0 ≠ [] := by
          have := outerLoop_length_pos (insertMerge σ.dirty_ranges ⟨s, e⟩) 0
            (insertMerge_length_pos σ.dirty_ranges ⟨s, e⟩)
          intro hcon
          rw [hcon] at this
          simp at this
      -- after a non-empty insertion the state is host_dirty in both branches
        constructor
        · constructor
          · intro _
            exact hne
          · intro _
            cases hst : σ.state with
            | clean => simp [hst]
            | host_dirty => simp [hst]
            | device_dirty => exact absurd hst hnd
        · intro hdev
          exfalso
          cases hst : σ.state with
          | clean => rw [hst] at hdev; simp at hdev
          | host_dirty => rw [hst] at hdev; simp at hdev
          | device_dirty => exact hnd hst
    | mdd =>
      show _ ∧ _
      rw [estep, mark_device_dirty]
      simp
    | std =>
      show _ ∧ _
      rw [estep, sync_to_device]
      by_cases hst : σ.state = memory_state.host_dirty
      · rw [if_pos hst]
        simp
      · rw [if_neg hst]
        exact ih
    | sth =>
      show _ ∧ _
      rw [estep, sync_to_host]
      by_cases hst : σ.state = memory_state.device_dirty
      · rw [if_pos hst]
        by_cases hal : σ.device_allocated
        · rw [if_pos hal]
          have hempty : σ.dirty_ranges = [] := ih.2 hst
          simp [hempty]
        · rw [if_neg hal]
          exact ih
      · rw [if_neg hst]
        exact ih
    | rsz n =>
      show _ ∧ _
      rw [estep, resize]
      by_cases hc : n ≤ σ.capacity
      · rw [if_pos hc]
        exact ih
      · rw [if_neg hc]
        exact ih

/-- Witness for the amended C2 invariant after one protocol-respecting
`mark_host_dirty(0, 2)` on a fresh engine of capacity 4. -/
theorem C2_state_dirty_set_invariant_witness :
    (((estep (mkEngine 4) (.mhd 0 2)).state = memory_state.host_dirty) ↔
        (estep (mkEngine 4) (.mhd 0 2)).dirty_ranges ≠ []) ∧
      ((estep (mkEngine 4) (.mhd 0 2)).state = memory_state.device_dirty →
        (estep (mkEngine 4) (.mhd 0 2)).dirty_ranges = []) :=
  C2_state_dirty_set_invariant (estep (mkEngine 4) (.mhd 0 2))
    (ProtocolReach.step (mkEngine 4) (.mhd 0 2) (ProtocolReach.init 4)
      ⟨by simp [mkEngine], by omega, by simp [mkEngine]⟩)

instance (rs : List dirty_range) (x : Nat) : Decidable (covered rs x) := by
  unfold covered
  infer_instance

/-- Transfers submitted by the per-range copy loop of
`sync_to_device_impl`: one host→device copy per non-empty tracked range,
in order. -/
def pushLog (rs : List dirty_range) : List Transfer :=
  (rs.filter fun r => decide (r.start < r.stop)).map fun r => .hostToDevice r.start r.size

/-- Pointwise meaning of the per-range copy loop: indices covered by
some tracked range receive the host value, all others keep the previous
device value; the submitted transfers are exactly one per non-empty
range. -/
theorem pushRanges_spec : ∀ (rs : List dirty_range) (host dev : Nat → Int),
    (∀ i, (pushRanges host dev rs).1 i = if covered rs i then host i else dev i) ∧
      (pushRanges host dev rs).2 = pushLog rs := by
  intro rs
  induction rs with
  | nil =>
    intro host dev
    refine ⟨fun i => ?_, rfl⟩
    simp [pushRanges, covered, pushLog]
  | cons r rest ih =>
    intro host dev
    by_cases hr : r.start < r.stop
    · refine ⟨fun i => ?_, ?_⟩
      · rw [pushRanges, if_pos hr]
        rw [(ih host (writeSeg dev host r.start r.stop)).1 i]
        by_cases hcov : covered rest i
        · rw [if_pos hcov, if_pos (by exact ⟨hcov.choose, List.mem_cons_of_mem r hcov.choose_spec.1, hcov.choose_spec.2⟩)]
        · rw [if_neg hcov, writeSeg]
          by_cases hin : r.start ≤ i ∧ i < r.stop
          · rw [if_pos hin, if_pos ⟨r, List.mem_cons_self r rest, hin⟩]
          · rw [if_neg hin, if_neg]
            rintro ⟨d, hd, hpt⟩
            rcases List.mem_cons.mp hd with rfl | hd
            · exact hin hpt
            · exact hcov ⟨d, hd, hpt⟩
      · rw [pushRanges, if_pos hr]
        simp only [(ih host (writeSeg dev host r.start r.stop)).2, pushLog]
        rw [List.filter_cons_of_pos (by simpa using hr)]
        simp
    · refine ⟨fun i => ?_, ?_⟩
      · rw [pushRanges, if_neg hr]
        rw [(ih host dev).1 i]
        by_cases hcov : covered rest i
        · rw [if_pos hcov, if_pos ⟨hcov.choose, List.mem_cons_of_mem r hcov.choose_spec.1, hcov.choose_spec.2⟩]
        · rw [if_neg hcov, if_neg]
          rintro ⟨d, hd, hpt⟩
          rcases List.mem_cons.mp hd with rfl | hd
          · omega
          · exact hcov ⟨d, hd, hpt⟩
      · rw [pushRanges, if_neg hr]
        rw [(ih host dev).2]
        simp [pushLog, List.filter_cons, hr]

/-- C5: `mark_device_dirty` unconditionally empties the dirty-range set
and sets the state to `DeviceDirty`, regardless of prior state and prior
dirty set, touching nothing else. -/
theorem C5_mark_device_dirty_unconditional (σ : Engine) :
    (mark_device_dirty σ).dirty_ranges = [] ∧
      (mark_device_dirty σ).state = memory_state.device_dirty ∧
      (mark_device_dirty σ).host_data = σ.host_data ∧
      (mark_device_dirty σ).device_buffer = σ.device_buffer ∧
      (mark_device_dirty σ).capacity = σ.capacity ∧
      (mark_device_dirty σ).device_allocated = σ.device_allocated ∧
      (mark_device_dirty σ).log = σ.log :=
  ⟨rfl, rfl, rfl, rfl, rfl, rfl, rfl⟩

/-- C4: `sync_to_device` is the identity (no transfer, nothing changed)
whenever the state is not `HostDirty`; from `HostDirty` it copies exactly
the tracked dirty host sub-ranges onto the device mirror (allocating it
if needed), submits one transfer per non-empty range, clears the
tracker, and sets the state to `Clean`, leaving host data untouched. -/
theorem C4_sync_to_device_behavior (σ : Engine) :
    (σ.state ≠ memory_state.host_dirty → sync_to_device σ = σ) ∧
      (σ.state = memory_state.host_dirty →
        (sync_to_device σ).state = memory_state.clean ∧
        (sync_to_device σ).dirty_ranges = [] ∧
        (sync_to_device σ).host_data = σ.host_data ∧
        (sync_to_device σ).capacity = σ.capacity ∧
        (sync_to_device σ).device_allocated = true ∧
        (sync_to_device σ).log = σ.log ++ pushLog σ.dirty_ranges ∧
        (∀ i, covered σ.dirty_ranges i →
          (sync_to_device σ).device_buffer i = σ.host_data i) ∧
        (∀ i, ¬ covered σ.dirty_ranges i → σ.device_allocated = true →
          (sync_to_device σ).device_buffer i = σ.device_buffer i)) := by
  constructor
  · intro h
    rw [sync_to_device, if_neg h]
  · intro h
    rw [sync_to_device, if_pos h]
    have hp := pushRanges_spec σ.dirty_ranges σ.host_data
      (if σ.device_allocated then σ.device_buffer else fun _ => 0)
    refine ⟨rfl, rfl, rfl, rfl, rfl, by rw [hp.2], ?_, ?_⟩
    · intro i hcov
      show (pushRanges σ.host_data _ σ.dirty_ranges).1 i = _
      rw [hp.1 i, if_pos hcov]
    · intro i hcov hal
      show (pushRanges σ.host_data _ σ.dirty_ranges).1 i = _
      rw [hp.1 i, if_neg hcov, if_pos hal]

/-- Witness for C4: the no-op branch on a fresh clean engine, and the
transfer branch after marking `[0, 2)` host-dirty on capacity 3. -/
theorem C4_sync_to_device_behavior_witness :
    (sync_to_device (mkEngine 3) = mkEngine 3) ∧
      ((sync_to_device (markHostDirtyP (mkEngine 3) 0 2)).state = memory_state.clean ∧
        (sync_to_device (markHostDirtyP (mkEngine 3) 0 2)).dirty_ranges = [] ∧
        (sync_to_device (markHostDirtyP (mkEngine 3) 0 2)).log =
          (markHostDirtyP (mkEngine 3) 0 2).log ++
            pushLog (markHostDirtyP (mkEngine 3) 0 2).dirty_ranges) :=
  ⟨(C4_sync_to_device_behavior (mkEngine 3)).1 (by simp [mkEngine]),
   ⟨((C4_sync_to_device_behavior (markHostDirtyP (mkEngine 3) 0 2)).2 (by simp [markHostDirtyP, mkEngine])).1,
    ((C4_sync_to_device_behavior (markHostDirtyP (mkEngine 3) 0 2)).2 (by simp [markHostDirtyP, mkEngine])).2.1,
    ((C4_sync_to_device_behavior (markHostDirtyP (mkEngine 3) 0 2)).2 (by simp [markHostDirtyP, mkEngine])).2.2.2.2.2.1⟩⟩

/-- Early return of `sync_to_device_impl` outside state `host_dirty`. -/
theorem sync_to_device_noop (σ : Engine) (h : σ.state ≠ memory_state.host_dirty) :
    sync_to_device σ = σ := by
  rw [sync_to_device, if_neg h]

/-- Early returns of `sync_to_host_impl`: nothing happens outside state
`device_dirty`, and nothing happens either when the device mirror was
never allocated. -/
theorem sync_to_host_noop (σ : Engine) (h : σ.state ≠ memory_state.device_dirty ∨ σ.device_allocated = false) :
    sync_to_host σ = σ := by
  rcases h with h | h
  · rw [sync_to_host, if_neg h]
  · by_cases hd : σ.state = memory_state.device_dirty
    · rw [sync_to_host, if_pos hd, if_neg (by simp [h])]
    · rw [sync_to_host, if_neg hd]

/-- Repeating `sync_to_device` is observably a no-op: the second call
returns the engine of the first call unchanged. -/
theorem sync_to_device_idem (σ : Engine) :
    sync_to_device (sync_to_device σ) = sync_to_device σ := by
  by_cases h : σ.state = memory_state.host_dirty
  · have h1 : (sync_to_device σ).state = memory_state.clean := by
      rw [sync_to_device, if_pos h]
    exact sync_to_device_noop _ (by rw [h1]; simp)
  · rw [sync_to_device_noop σ h, sync_to_device_noop σ h]

/-- Repeating `sync_to_host` is observably a no-op. -/
theorem sync_to_host_idem (σ : Engine) :
    sync_to_host (sync_to_host σ) = sync_to_host σ := by
  by_cases h : σ.state = memory_state.device_dirty
  · by_cases hal : σ.device_allocated
    · have h1 : (sync_to_host σ).state = memory_state.clean := by
        rw [sync_to_host, if_pos h, if_pos hal]
      exact sync_to_host_noop _ (Or.inl (by rw [h1]; simp))
    · have h1 : sync_to_host σ = σ := sync_to_host_noop σ (Or.inr (by simpa using hal))
      rw [h1, h1]
  · have h1 : sync_to_host σ = σ := sync_to_host_noop σ (Or.inl h)
    rw [h1, h1]

/-- A concrete engine state reached through engine and proxy operations:
mark `[0, 1)` host-dirty, flush to the device (allocating the mirror and
copying host value 0), write 7 into slot 0 through the proxy write path,
then `mark_device_dirty` as after a kernel launch.  The device mirror
(holding 0) is authoritative and disagrees with host slot 0 (holding 7). -/
def sigmaC6 : Engine :=
  mark_device_dirty
    (set_impl { engine := sync_to_device (markHostDirtyP (mkEngine 1) 0 1), size := 1 } 0 7).engine

/-- C6 counterexample: from state `DeviceDirty` with device contents
differing from host contents, `sync_to_device()` followed by
`sync_to_host()` replaces the host data by the device data, so the host
data is not identical to before the pair of calls. -/
theorem C6_counterexample :
    sigmaC6.state = memory_state.device_dirty ∧
      sigmaC6.host_data 0 = 7 ∧
      (sync_to_host (sync_to_device sigmaC6)).host_data 0 = 0 ∧
      (sync_to_host (sync_to_device sigmaC6)).host_data 0 ≠ sigmaC6.host_data 0 := by
  refine ⟨rfl, ?_, ?_, ?_⟩ <;>
    simp [sigmaC6, set_impl, mark_device_dirty, sync_to_device, sync_to_host, markHostDirtyP,
      mkEngine, outerLoop, innerLoop, insertMerge, pushRanges, writeSeg]

/-- C6 (amended): when the initial state is not `DeviceDirty`, the pair
`sync_to_device(); sync_to_host()` leaves the state `Clean` and the host
data identical to before; and a second consecutive `sync_to_device()`
(likewise `sync_to_host()`) is observably a complete no-op — the whole
engine, including the transfer log, is unchanged — in every state. -/
theorem C6_roundtrip_and_idempotence (σ : Engine) :
    (σ.state ≠ memory_state.device_dirty →
      (sync_to_host (sync_to_device σ)).state = memory_state.clean ∧
        (sync_to_host (sync_to_device σ)).host_data = σ.host_data) ∧
      sync_to_device (sync_to_device σ) = sync_to_device σ ∧
      sync_to_host (sync_to_host σ) = sync_to_host σ := by
  refine ⟨?_, sync_to_device_idem σ, sync_to_host_idem σ⟩
  intro hnd
  by_cases h : σ.state = memory_state.host_dirty
  · have h1 : (sync_to_device σ).state = memory_state.clean := by
      rw [sync_to_device, if_pos h]
    have h2 : sync_to_host (sync_to_device σ) = sync_to_device σ :=
      sync_to_host_noop _ (Or.inl (by rw [h1]; simp))
    rw [h2, h1]
    refine ⟨rfl, ?_⟩
    rw [sync_to_device, if_pos h]
  · have h1 : sync_to_device σ = σ := sync_to_device_noop σ h
    have h2 : sync_to_host σ = σ := sync_to_host_noop σ (Or.inl hnd)
    rw [h1, h2]
    refine ⟨?_, rfl⟩
    cases hs : σ.state with
    | clean => rfl
    | host_dirty => exact absurd hs h
    | device_dirty => exact absurd hs hnd

/-- Witness for the amended C6 at a `HostDirty` engine: the sync pair
ends `Clean` with the host data untouched, and a second
`sync_to_device` changes nothing. -/
theorem C6_roundtrip_and_idempotence_witness :
    ((sync_to_host (sync_to_device (markHostDirtyP (mkEngine 2) 0 1))).state =
        memory_state.clean ∧
      (sync_to_host (sync_to_device (markHostDirtyP (mkEngine 2) 0 1))).host_data =
        (markHostDirtyP (mkEngine 2) 0 1).host_data) ∧
      sync_to_device (sync_to_device (markHostDirtyP (mkEngine 2) 0 1)) =
        sync_to_device (markHostDirtyP (mkEngine 2) 0 1) :=
  ⟨(C6_roundtrip_and_idempotence (markHostDirtyP (mkEngine 2) 0 1)).1
      (by simp [markHostDirtyP, mkEngine]),
   (C6_roundtrip_and_idempotence (markHostDirtyP (mkEngine 2) 0 1)).2.1⟩

/-- C7: `resize` is a complete no-op whenever the requested capacity does
not exceed the current one; when it grows the capacity while the state
is `DeviceDirty` and a device mirror exists, the old device contents up
to the old capacity are copied into the new mirror, and a subsequent
`sync_to_host` reproduces exactly those values on the host at the old
indices. -/
theorem C7_resize_growth_only (σ : Engine) (n : Nat) :
    (n ≤ σ.capacity → resize σ n = σ) ∧
      (σ.capacity < n → σ.state = memory_state.device_dirty →
        σ.device_allocated = true →
        (resize σ n).capacity = n ∧
        (∀ i, i < σ.capacity → (resize σ n).device_buffer i = σ.device_buffer i) ∧
        (∀ i, i < σ.capacity →
          (sync_to_host (resize σ n)).host_data i = σ.device_buffer i)) := by
  constructor
  · intro h
    rw [resize, if_pos h]
  · intro hlt hst hal
    have hcap : (resize σ n).capacity = n := by
      rw [resize, if_neg (by omega)]
    have hdev : ∀ i, i < σ.capacity → (resize σ n).device_buffer i = σ.device_buffer i := by
      intro i hi
      rw [resize, if_neg (by omega)]
      simp [hal, hst, hi]
    refine ⟨hcap, hdev, ?_⟩
    intro i hi
    have hst2 : (resize σ n).state = memory_state.device_dirty := by
      rw [resize, if_neg (by omega)]
      exact hst
    have hal2 : (resize σ n).device_allocated = true := by
      rw [resize, if_neg (by omega)]
      exact hal
    rw [sync_to_host, if_pos hst2, if_pos hal2]
    show (if i < (resize σ n).capacity then (resize σ n).device_buffer i
      else (resize σ n).host_data i) = σ.device_buffer i
    rw [if_pos (by rw [hcap]; omega), hdev i hi]

/-- Witness for C7: the no-op branch on a fresh engine of capacity 4
with requested capacity 3, and the growth branch from 4 to 8 in state
`DeviceDirty` with an allocated mirror (Scenario F, index 0). -/
theorem C7_resize_growth_only_witness :
    (resize (mkEngine 4) 3 = mkEngine 4) ∧
      ((sync_to_host
          (resize (mark_device_dirty (sync_to_device (markHostDirtyP (mkEngine 4) 0 4))) 8)).host_data 0 =
        (mark_device_dirty (sync_to_device (markHostDirtyP (mkEngine 4) 0 4))).device_buffer 0) :=
  ⟨(C7_resize_growth_only (mkEngine 4) 3).1 (by simp [mkEngine]),
   (((C7_resize_growth_only
        (mark_device_dirty (sync_to_device (markHostDirtyP (mkEngine 4) 0 4))) 8).2
      (by simp [mark_device_dirty, sync_to_device, markHostDirtyP, mkEngine])
      (by simp [mark_device_dirty])
      (by simp [mark_device_dirty, sync_to_device, markHostDirtyP, mkEngine])).2.2 0
      (by simp [mark_device_dirty, sync_to_device, markHostDirtyP, mkEngine]))⟩

/-- C8: `mark_host_dirty` fails fast — an inverted range is rejected by
the first assertion, an out-of-capacity range by the second — without
inserting or clamping anything; a valid empty range is accepted and
leaves the engine entirely unchanged. -/
theorem C8_range_validation (σ : Engine) (s e : Nat) :
    (e < s → mark_host_dirty σ s e = Except.error RangeError.inverted) ∧
      (s ≤ e → σ.capacity < e →
        mark_host_dirty σ s e = Except.error RangeError.outOfCapacity) ∧
      (s = e → e ≤ σ.capacity → mark_host_dirty σ s e = Except.ok σ) := by
  refine ⟨?_, ?_, ?_⟩
  · intro h
    rw [mark_host_dirty, if_neg (by omega)]
  · intro h1 h2
    rw [mark_host_dirty, if_pos h1, if_neg (by omega)]
  · intro h1 h2
    subst h1
    rw [mark_host_dirty, if_pos (le_refl s), if_pos h2, markHostDirtyP, if_pos rfl]

/-- Witness for C8 on a fresh engine of capacity 4: inverted range
`(3, 2)`, out-of-capacity range `(2, 5)`, and the valid empty range
`(2, 2)` which is a no-op. -/
theorem C8_range_validation_witness :
    mark_host_dirty (mkEngine 4) 3 2 = Except.error RangeError.inverted ∧
      mark_host_dirty (mkEngine 4) 2 5 = Except.error RangeError.outOfCapacity ∧
      mark_host_dirty (mkEngine 4) 2 2 = Except.ok (mkEngine 4) :=
  ⟨(C8_range_validation (mkEngine 4) 3 2).1 (by omega),
   (C8_range_validation (mkEngine 4) 2 5).2.1 (by omega) (by simp [mkEngine]),
   (C8_range_validation (mkEngine 4) 2 2).2.2 rfl (by simp [mkEngine])⟩

/-- C9: `unified_vector::at` reports an out-of-range error exactly when
`pos >= size_`, and on that path the container is returned unchanged (no
sync, no dirty insertion, no state transition — the successful path
merely builds a proxy handle); `operator[]` performs no bounds check at
all and returns the proxy for every position. -/
theorem C9_at_bounds_check (v : UVec) (pos : Nat) :
    ((uv_at v pos).1 = Except.error "unified_vector::at: index out of range" ↔
        v.size ≤ pos) ∧
      (uv_at v pos).2 = v ∧
      uv_index v pos = (pos, v) := by
  refine ⟨?_, ?_, rfl⟩
  · by_cases h : pos ≥ v.size
    · rw [uv_at, if_pos h]
      simpa using h
    · rw [uv_at, if_neg h]
      simp
      omega
  · by_cases h : pos ≥ v.size
    · rw [uv_at, if_pos h]
    · rw [uv_at, if_neg h]

theorem resize_capacity_le (σ : Engine) (n : Nat) :
    σ.capacity ≤ (resize σ n).capacity := by
  rw [resize]
  by_cases h : n ≤ σ.capacity
  · rw [if_pos h]
  · rw [if_neg h]
    show σ.capacity ≤ n
    omega

theorem markHostDirtyP_capacity (σ : Engine) (s e : Nat) :
    (markHostDirtyP σ s e).capacity = σ.capacity := by
  rw [markHostDirtyP]
  by_cases h : s = e
  · rw [if_pos h]
  · rw [if_neg h]

theorem sync_to_host_capacity (σ : Engine) :
    (sync_to_host σ).capacity = σ.capacity := by
  rw [sync_to_host]
  by_cases h : σ.state = memory_state.device_dirty
  · rw [if_pos h]
    by_cases hal : σ.device_allocated
    · rw [if_pos hal]
    · rw [if_neg hal]
  · rw [if_neg h]

theorem sync_to_device_capacity (σ : Engine) :
    (sync_to_device σ).capacity = σ.capacity := by
  rw [sync_to_device]
  by_cases h : σ.state = memory_state.host_dirty
  · rw [if_pos h]
  · rw [if_neg h]

theorem set_impl_capacity (v : UVec) (idx : Nat) (val : Int) :
    (set_impl v idx val).engine.capacity = v.engine.capacity := by
  rw [set_impl]
  show (markHostDirtyP _ _ _).capacity = _
  rw [markHostDirtyP_capacity]
  exact sync_to_host_capacity v.engine

theorem at_impl_capacity (v : UVec) (idx : Nat) :
    (at_impl v idx).2.engine.capacity = v.engine.capacity :=
  sync_to_host_capacity v.engine

theorem uv_reserve_capacity_le (v : UVec) (n : Nat) :
    v.engine.capacity ≤ (uv_reserve v n).engine.capacity := by
  rw [uv_reserve]
  by_cases h : n > v.engine.capacity
  · rw [if_pos h]
    exact resize_capacity_le v.engine n
  · rw [if_neg h]

/-- C10: the capacity of a `unified_vector` never decreases across any
container or engine operation — including `shrink_to_fit` and `clear` —
because the engine's `resize_impl` returns immediately whenever the
requested capacity is not strictly larger than the current one. -/
theorem C10_capacity_monotone (v : UVec) (op : VOp) :
    v.engine.capacity ≤ (vstep v op).engine.capacity := by
  cases op with
  | push val =>
    show v.engine.capacity ≤ (uv_push_back v val).engine.capacity
    rw [uv_push_back]
    show v.engine.capacity ≤ (markHostDirtyP _ _ _).capacity
    rw [markHostDirtyP_capacity]
    by_cases h : v.size ≥ v.engine.capacity
    · rw [if_pos h]
      exact uv_reserve_capacity_le v _
    · rw [if_neg h]
  | pop =>
    show v.engine.capacity ≤ (uv_pop_back v).engine.capacity
    rw [uv_pop_back]
    by_cases h : v.size > 0
    · rw [if_pos h]
    · rw [if_neg h]
  | clearOp => exact le_refl _
  | reserveOp n => exact uv_reserve_capacity_le v n
  | resizeOp n val =>
    show v.engine.capacity ≤ (uv_resize v n val).engine.capacity
    rw [uv_resize]
    by_cases h2 : n > v.size
    · rw [if_pos h2]
      show v.engine.capacity ≤ (markHostDirtyP _ _ _).capacity
      rw [markHostDirtyP_capacity]
      by_cases h : n > v.engine.capacity
      · rw [if_pos h]
        exact uv_reserve_capacity_le v n
      · rw [if_neg h]
    · rw [if_neg h2]
      by_cases h : n > v.engine.capacity
      · rw [if_pos h]
        exact uv_reserve_capacity_le v n
      · rw [if_neg h]
  | shrink =>
    show v.engine.capacity ≤ (uv_shrink_to_fit v).engine.capacity
    rw [uv_shrink_to_fit]
    by_cases h : v.size < v.engine.capacity
    · rw [if_pos h]
      exact resize_capacity_le v.engine v.size
    · rw [if_neg h]
  | assignOp n val =>
    show v.engine.capacity ≤ (uv_assign v n val).engine.capacity
    rw [uv_assign]
    show v.engine.capacity ≤ (markHostDirtyP _ _ _).capacity
    rw [markHostDirtyP_capacity]
    by_cases h : n > v.engine.capacity
    · rw [if_pos h]
      exact resize_capacity_le v.engine n
    · rw [if_neg h]
  | setOp idx val =>
    rw [vstep, set_impl_capacity]
  | addAssignOp idx rhs =>
    show v.engine.capacity ≤ (proxy_add_assign v idx rhs).engine.capacity
    rw [proxy_add_assign, set_impl_capacity, at_impl_capacity]
  | incrOp idx =>
    show v.engine.capacity ≤ (proxy_incr v idx).engine.capacity
    rw [proxy_incr, set_impl_capacity, at_impl_capacity]
  | swapOp i j =>
    show v.engine.capacity ≤ (proxy_swap v i j).engine.capacity
    rw [proxy_swap, set_impl_capacity, set_impl_capacity, at_impl_capacity, at_impl_capacity]
  | readOp idx =>
    show v.engine.capacity ≤ (at_impl v idx).2.engine.capacity
    rw [at_impl_capacity]
  | atOp pos =>
    show v.engine.capacity ≤ (uv_at v pos).2.engine.capacity
    rw [uv_at]
    by_cases h : pos ≥ v.size
    · rw [if_pos h]
    · rw [if_neg h]
  | indexOp pos => exact le_refl _
  | prefetchOp =>
    show v.engine.capacity ≤ (sync_to_device v.engine).capacity
    rw [sync_to_device_capacity]
  | syncHostOp =>
    show v.engine.capacity ≤ (sync_to_host v.engine).capacity
    rw [sync_to_host_capacity]
  | markDeviceDirtyOp => exact le_refl _
  | markHostDirtyOp s e =>
    show v.engine.capacity ≤ (markHostDirtyP v.engine s e).capacity
    rw [markHostDirtyP_capacity]
  | clearDirtyOp => exact le_refl _

theorem markHostDirtyP_host_data (σ : Engine) (s e : Nat) :
    (markHostDirtyP σ s e).host_data = σ.host_data := by
  rw [markHostDirtyP]
  by_cases h : s = e
  · rw [if_pos h]
  · rw [if_neg h]

theorem markHostDirtyP_device_allocated (σ : Engine) (s e : Nat) :
    (markHostDirtyP σ s e).device_allocated = σ.device_allocated := by
  rw [markHostDirtyP]
  by_cases h : s = e
  · rw [if_pos h]
  · rw [if_neg h]

theorem markHostDirtyP_state_device (σ : Engine) (s e : Nat)
    (h : (markHostDirtyP σ s e).state = memory_state.device_dirty) :
    σ.state = memory_state.device_dirty := by
  rw [markHostDirtyP] at h
  by_cases hse : s = e
  · rwa [if_pos hse] at h
  · rw [if_neg hse] at h
    by_cases hc : σ.state = memory_state.clean
    · rw [show ({ σ with
          dirty_ranges := outerLoop (insertMerge σ.dirty_ranges ⟨s, e⟩) 0,
          state := if σ.state = memory_state.clean then memory_state.host_dirty
            else σ.state } : Engine).state =
          (if σ.state = memory_state.clean then memory_state.host_dirty else σ.state) from rfl,
        if_pos hc] at h
      exact absurd h (by simp)
    · rwa [show ({ σ with
          dirty_ranges := outerLoop (insertMerge σ.dirty_ranges ⟨s, e⟩) 0,
          state := if σ.state = memory_state.clean then memory_state.host_dirty
            else σ.state } : Engine).state =
          (if σ.state = memory_state.clean then memory_state.host_dirty else σ.state) from rfl,
        if_neg hc] at h

theorem sync_to_host_state_device (σ : Engine)
    (h : (sync_to_host σ).state = memory_state.device_dirty) :
    (sync_to_host σ).device_allocated = false := by
  by_cases hd : σ.state = memory_state.device_dirty
  · by_cases hal : σ.device_allocated
    · rw [sync_to_host, if_pos hd, if_pos hal] at h
      exact absurd h (by simp)
    · rw [sync_to_host_noop σ (Or.inr (by simpa using hal))] at h ⊢
      simpa using hal
  · rw [sync_to_host_noop σ (Or.inl hd)] at h
    exact absurd h hd

/-- The write path never leaves the engine in a state from which the
next `sync_to_host` would transfer anything: after `set_impl` a further
`sync_to_host` is the identity. -/
theorem set_impl_sync_noop (w : UVec) (idx : Nat) (val : Int) :
    sync_to_host ((set_impl w idx val).engine) = (set_impl w idx val).engine := by
  apply sync_to_host_noop
  by_cases h : ((set_impl w idx val).engine).state = memory_state.device_dirty
  · right
    have h2 : (sync_to_host w.engine).state = memory_state.device_dirty := by
      have := markHostDirtyP_state_device _ _ _ h
      exact this
    have h3 := sync_to_host_state_device w.engine h2
    show (markHostDirtyP _ _ _).device_allocated = false
    rw [markHostDirtyP_device_allocated]
    exact h3
  · exact Or.inl h

theorem set_impl_host_self (w : UVec) (idx : Nat) (val : Int) :
    (set_impl w idx val).engine.host_data idx = val := by
  show (markHostDirtyP _ _ _).host_data idx = val
  rw [markHostDirtyP_host_data]
  simp

theorem set_impl_host_other (w : UVec) (idx j : Nat) (val : Int) (h : j ≠ idx) :
    (set_impl w idx val).engine.host_data j = (sync_to_host w.engine).host_data j := by
  show (markHostDirtyP _ _ _).host_data j = _
  rw [markHostDirtyP_host_data]
  simp [h]

/-- C3: every element write through a proxy handle follows the protocol
sync-to-host, store at `index`, `mark_host_dirty(index, index+1)`.  The
first conjunct is the literal protocol equation for `set_impl` (the
shared write path); the remaining conjuncts show that after the write
the host value at `index` is the written value and every other host
index still holds its synced value, for plain assignment, compound
assignment, increment, and swap. -/
theorem C3_proxy_write_protocol (v : UVec) (idx : Nat) (val rhs : Int)
    (hcap : idx < v.engine.capacity) :
    ((set_impl v idx val).engine =
        markHostDirtyP
          { sync_to_host v.engine with
            host_data := fun j =>
              if j = idx then val else (sync_to_host v.engine).host_data j }
          idx (idx + 1)) ∧
      (set_impl v idx val).engine.host_data idx = val ∧
      (∀ j, j ≠ idx → (set_impl v idx val).engine.host_data j =
          (sync_to_host v.engine).host_data j) ∧
      proxy_assign v idx val = set_impl v idx val ∧
      (proxy_add_assign v idx rhs).engine.host_data idx = (at_impl v idx).1 + rhs ∧
      (∀ j, j ≠ idx → (proxy_add_assign v idx rhs).engine.host_data j =
          (sync_to_host v.engine).host_data j) ∧
      (proxy_incr v idx).engine.host_data idx = (at_impl v idx).1 + 1 ∧
      (∀ a b : Nat, a ≠ b →
        (proxy_swap v a b).engine.host_data b = (at_impl v a).1 ∧
        (proxy_swap v a b).engine.host_data a = (at_impl (at_impl v a).2 b).1) := by
  refine ⟨rfl, set_impl_host_self v idx val, fun j hj => set_impl_host_other v idx j val hj,
    rfl, set_impl_host_self _ idx _, ?_, set_impl_host_self _ idx _, ?_⟩
  · intro j hj
    rw [proxy_add_assign, set_impl_host_other _ idx j _ hj]
    show (sync_to_host (sync_to_host v.engine)).host_data j = _
    rw [sync_to_host_idem]
  · intro a b hab
    refine ⟨set_impl_host_self _ b _, ?_⟩
    rw [proxy_swap, set_impl_host_other _ b a _ hab, set_impl_sync_noop,
      set_impl_host_self]

/-- Witness for C3 at a concrete write: index 1, value 9, on a fresh
vector of size and capacity 3. -/
theorem C3_proxy_write_protocol_witness :
    (set_impl (mkUVec 3) 1 9).engine.host_data 1 = 9 ∧
      (proxy_incr (mkUVec 3) 1).engine.host_data 1 = (at_impl (mkUVec 3) 1).1 + 1 ∧
      proxy_assign (mkUVec 3) 1 9 = set_impl (mkUVec 3) 1 9 :=
  ⟨(C3_proxy_write_protocol (mkUVec 3) 1 9 9 (by simp [mkUVec, mkEngine])).2.1,
   (C3_proxy_write_protocol (mkUVec 3) 1 9 9 (by simp [mkUVec, mkEngine])).2.2.2.2.2.2.1,
   (C3_proxy_write_protocol (mkUVec 3) 1 9 9 (by simp [mkUVec, mkEngine])).2.2.2.1⟩

end VkStdpar
